import Mathlib

/-
  Verification development for the DeviceTree language front end
  (vscode-devicetree, file dts.ts and its collaborators).

  The definitions below are shallow embeddings of the TypeScript source:
  the property value model, the typed accessors on Property, the per-node
  entry merge (Node.sortedEntries / Node.uniqueProperties / Node.property /
  Node.enabled), the parser state machine that builds the node graph
  (Parser.parse), the raw/expanded position remapping of preprocessed lines
  (Line.rawPos / ParserState.location), the property value list parser
  (parsePropValue), the context reset/adopt/reparse orchestration
  (DTSCtx.reset / DTSCtx.adoptNodes / Parser.reparse), and the stable-flag
  waiter queue (Parser.stable and the drain loop in Parser.reparse).
-/

/-! ## Property value model

  PropertyValue and its subclasses (dts.ts).  Expression extends IntValue,
  so an Expression is an IntValue for instanceof checks; this is kept as a
  separate constructor whose isIntValue test is true.  Cells are the
  elements of an ArrayValue: PHandle, IntValue or Expression. -/

inductive PHKind where
  | ref
  | pathRef
  | string
  | invalid
deriving DecidableEq, Repr

inductive Cell where
  | int (n : Int) (hex : Bool)
  | expr (n : Int)
  | ph (r : String) (kind : PHKind)
deriving DecidableEq, Repr

/-- The instanceof IntValue test on a cell (Expression extends IntValue). -/
def Cell.isIntValue : Cell → Bool
  | .int _ _ => true
  | .expr _ => true
  | .ph _ _ => false

/-- The instanceof PHandle test on a cell. -/
def Cell.isPHandle : Cell → Bool
  | .ph _ _ => true
  | _ => false

/-- The val field of a cell; only read under an isIntValue guard in the
    source, where it is the evaluated integer. -/
def Cell.val : Cell → Int
  | .int n _ => n
  | .expr n => n
  | .ph _ _ => 0

/-- The payload of a PHandle cell, when the cell is one. -/
def Cell.phVal : Cell → Option (String × PHKind)
  | .ph r k => some (r, k)
  | _ => none

/-- Top level property values: StringValue, BoolValue, ArrayValue,
    BytestringValue and PHandle (the shapes parsePropValue can produce). -/
inductive PV where
  | str (s : String)
  | boolv
  | arr (cells : List Cell)
  | bytes (bs : List Nat)
  | ph (r : String) (kind : PHKind)
deriving DecidableEq, Repr

def PV.isArr : PV → Bool
  | .arr _ => true
  | _ => false

def PV.isStr : PV → Bool
  | .str _ => true
  | _ => false

def PV.isPHandle : PV → Bool
  | .ph _ _ => true
  | _ => false

def PV.cellsOf : PV → List Cell
  | .arr cs => cs
  | _ => []

def PV.strVal : PV → Option String
  | .str s => some s
  | _ => none

def PV.phVal : PV → Option (String × PHKind)
  | .ph r k => some (r, k)
  | _ => none

/-- A parsed property: name, labels, ordered value list (class Property). -/
structure PProp where
  name : String
  labels : List String
  value : List PV
deriving DecidableEq, Repr

/-! ## Typed accessors on Property (dts.ts, the getters on class Property)

  Each accessor mirrors the guards and accesses of the source getter.  A JS
  getter that runs off the end of its guarded checks returns undefined,
  modeled as none. -/

/-- Property.boolean: value.length === 1 and value[0] instanceof BoolValue. -/
def booleanAcc (vs : List PV) : Option Bool :=
  match vs with
  | [PV.boolv] => some true
  | _ => none

/-- Property.number: a single ArrayValue holding a single IntValue. -/
def numberAcc (vs : List PV) : Option Int :=
  match vs with
  | [PV.arr [c]] => if c.isIntValue then some c.val else none
  | _ => none

/-- Property.string: a single StringValue. -/
def stringAcc (vs : List PV) : Option String :=
  match vs with
  | [PV.str s] => some s
  | _ => none

/-- Property.pHandle: a single ArrayValue holding a single PHandle, or a
    single bare PHandle value. -/
def pHandleAcc (vs : List PV) : Option (String × PHKind) :=
  match vs with
  | [PV.arr [Cell.ph r k]] => some (r, k)
  | [PV.ph r k] => some (r, k)
  | _ => none

/-- Property.bytestring: a single BytestringValue. -/
def bytestringAcc (vs : List PV) : Option (List Nat) :=
  match vs with
  | [PV.bytes bs] => some bs
  | _ => none

/-- Property.array: a single ArrayValue whose cells are all IntValues. -/
def arrayAcc (vs : List PV) : Option (List Int) :=
  match vs with
  | [PV.arr cs] => if cs.all Cell.isIntValue then some (cs.map Cell.val) else none
  | _ => none

/-- Property.arrays: every value an ArrayValue of IntValues. -/
def arraysAcc (vs : List PV) : Option (List (List Int)) :=
  if vs.all (fun v => v.isArr && v.cellsOf.all Cell.isIntValue) then
    some (vs.map (fun v => v.cellsOf.map Cell.val))
  else none

/-- Property.pHandles: a single ArrayValue of PHandles, or every value a
    bare PHandle. -/
def pHandlesAcc (vs : List PV) : Option (List (String × PHKind)) :=
  if vs.length = 1 && (vs.headD PV.boolv).isArr
      && (vs.headD PV.boolv).cellsOf.all Cell.isPHandle then
    some ((vs.headD PV.boolv).cellsOf.filterMap Cell.phVal)
  else if vs.all PV.isPHandle then
    some (vs.filterMap PV.phVal)
  else none

/-- Property.pHandleArray: every value an ArrayValue. -/
def pHandleArrayAcc (vs : List PV) : Option (List (List Cell)) :=
  if vs.all PV.isArr then some (vs.map PV.cellsOf) else none

/-- Property.stringArray: every value a StringValue. -/
def stringArrayAcc (vs : List PV) : Option (List String) :=
  if vs.all PV.isStr then some (vs.filterMap PV.strVal) else none

/-- One entry of Property.entries: a phandle target and its cells. -/
structure PHEntry where
  target : String × PHKind
  cells : List Cell
deriving DecidableEq, Repr

/-- The count computation inside the entries loop: the index of the next
    PHandle cell after the target, or the remaining length. -/
def entCount (rest : List Cell) : Nat :=
  match rest.findIdx? Cell.isPHandle with
  | some k => k
  | none => rest.length

/-- The while loop inside the Property.entries getter, over the cell list of
    one ArrayValue.  Each iteration consumes the target cell and the int
    cells before the next PHandle; fuel bounds the iterations (each consumes
    at least one cell, so the cell count suffices). -/
def entLoop : Nat → List Cell → List PHEntry → List PHEntry
  | 0, _, acc => acc
  | _ + 1, [], acc => acc
  | fuel + 1, target :: rest, acc =>
    match target.phVal with
    | none => acc
    | some tv =>
      if (rest.take (entCount rest)).any (fun c => !c.isIntValue) then acc
      else entLoop fuel (rest.drop (entCount rest))
        (acc ++ [⟨tv, rest.take (entCount rest)⟩])

/-- Property.entries: splits the pHandleArray view into target/cells groups. -/
def entriesAcc (vs : List PV) : Option (List PHEntry) :=
  match pHandleArrayAcc vs with
  | none => none
  | some avs =>
    if avs.isEmpty then none
    else some (avs.foldl (fun acc cs => entLoop (cs.length + 1) cs acc) [])

/-! ## Node entry merge (Node.sortedEntries / Node.uniqueProperties)

  A NodeEntry carries its owning node (an arena index), the reference text
  when it reopens a node via an ampersand reference, its labels, its ordered
  property list, its per-file sequence number and its file priority. -/

structure Entry where
  nodeId : Nat
  ref : Option String
  labels : List String
  props : List PProp
  number : Nat
  filePriority : Nat
  parent : Option Nat
deriving DecidableEq, Repr

/-- The comparator of Node.sortedEntries:
    1000000 * (a.file.priority - b.file.priority) + (a.number - b.number),
    which equals entryWeight a - entryWeight b. -/
def entryWeight (e : Entry) : Int :=
  1000000 * (e.filePriority : Int) + (e.number : Int)

def entryLE (a b : Entry) : Bool :=
  decide (entryWeight a ≤ entryWeight b)

/-- Stable insertion used to model Array.prototype.sort (which is a stable
    sort, and with the consistent comparator above its output is the unique
    stable ordering by entryWeight): a later-arriving element goes after all
    kept elements that compare less or equal. -/
def insertStable (a : Entry) : List Entry → List Entry
  | [] => [a]
  | b :: t => if entryLE b a then b :: insertStable a t else a :: b :: t

/-- Node.sortedEntries: the entry list sorted by the weight comparator. -/
def sortedEntries (es : List Entry) : List Entry :=
  es.foldl (fun acc a => insertStable a acc) []

/-- JS object property write props[k] = v: an existing key keeps its position
    and gets the new value, a new key is appended. -/
def jsObjSet (m : List (String × PProp)) (k : String) (v : PProp) :
    List (String × PProp) :=
  if m.any (fun kv => kv.1 = k) then
    m.map (fun kv => if kv.1 = k then (k, v) else kv)
  else m ++ [(k, v)]

/-- Replaying one entry property list into the unique-view object:
    e.properties.forEach(p =&gt; props[p.name] = p). -/
def replayProps (m : List (String × PProp)) (ps : List PProp) :
    List (String × PProp) :=
  ps.foldl (fun m p => jsObjSet m p.name p) m

/-- Node.uniqueProperties: replay the sorted entries into a fresh object and
    keep the object (Object.values is its value list). -/
def uniqueProperties (es : List Entry) : List (String × PProp) :=
  (sortedEntries es).foldl (fun m e => replayProps m e.props) []

/-- Node.property(name): uniqueProperties().find(e =&gt; e.name === name). -/
def nodeProperty (name : String) (es : List Entry) : Option PProp :=
  ((uniqueProperties es).map Prod.snd).find? (fun p => p.name = name)

/-! ## Node.enabled (dts.ts lines 1375-1378) -/

/-- A node: its entries and the optional delete-node tombstone (the other
    Node fields do not participate in enabled()). -/
structure NodeD where
  entries : List Entry
  deleted : Bool
deriving DecidableEq, Repr

/-- JS truthiness of an optional string: undefined and the empty string are
    falsy. -/
def jsFalsyStr : Option String → Bool
  | none => true
  | some s => s = ""

/-- Node.enabled: !status?.string || ['okay', 'ok'].includes(status.string). -/
def enabled (n : NodeD) : Bool :=
  let status := nodeProperty "status" n.entries
  let sstr := status.bind (fun p => stringAcc p.value)
  jsFalsyStr sstr || (sstr = some "okay" || sstr = some "ok")

/-! ## Lemmas about the unique-property replay -/

/-- Key lookup in the unique-view object. -/
def lookupKey (k : String) (m : List (String × PProp)) : Option PProp :=
  (m.find? (fun kv => kv.1 = k)).map Prod.snd

/-- Every stored property is keyed by its own name. -/
def WfMap (m : List (String × PProp)) : Prop :=
  ∀ kv ∈ m, (kv : String × PProp).2.name = kv.1

/-- All property declarations for one name, in replay order. -/
def declsOf (P : String) (es : List Entry) : List PProp :=
  (es.flatMap (fun e => e.props)).filter (fun p => p.name = P)

theorem wfMap_nil : WfMap [] := by
  intro kv h
  cases h

theorem wfMap_jsObjSet {m : List (String × PProp)} {k : String} {v : PProp}
    (hm : WfMap m) (hv : v.name = k) : WfMap (jsObjSet m k v) := by
  intro kv hkv
  unfold jsObjSet at hkv
  split at hkv
  · rcases List.mem_map.mp hkv with ⟨kv', hkv', heq⟩
    by_cases h : kv'.1 = k
    · rw [if_pos h] at heq
      subst heq
      simpa using hv
    · rw [if_neg h] at heq
      exact heq ▸ hm kv' hkv'
  · rcases List.mem_append.mp hkv with h | h
    · exact hm kv h
    · simp only [List.mem_singleton] at h
      subst h
      simpa using hv

theorem wfMap_replayProps {m : List (String × PProp)} {ps : List PProp}
    (hm : WfMap m) : WfMap (replayProps m ps) := by
  induction ps generalizing m with
  | nil => exact hm
  | cons p t ih => exact ih (wfMap_jsObjSet hm rfl)

theorem wfMap_uniqueProperties (es : List Entry) : WfMap (uniqueProperties es) := by
  unfold uniqueProperties
  generalize sortedEntries es = l
  suffices h : ∀ (l : List Entry) (m : List (String × PProp)), WfMap m →
      WfMap (l.foldl (fun m e => replayProps m e.props) m) by
    exact h l [] wfMap_nil
  intro l
  induction l with
  | nil => intro m hm; exact hm
  | cons e t ih => intro m hm; exact ih _ (wfMap_replayProps hm)

theorem find?_values_eq_lookupKey {m : List (String × PProp)} {k : String}
    (hm : WfMap m) :
    (m.map Prod.snd).find? (fun p => p.name = k) = lookupKey k m := by
  induction m with
  | nil => rfl
  | cons kv t ih =>
    have hname : kv.2.name = kv.1 := hm kv (List.mem_cons_self kv t)
    have ht : WfMap t := fun x hx => hm x (List.mem_cons_of_mem kv hx)
    by_cases h : kv.1 = k
    · simp [lookupKey, List.find?, hname, h]
    · have e1 : (decide (kv.2.name = k)) = false := by simp [hname, h]
      have e2 : (decide (kv.1 = k)) = false := by simp [h]
      simp only [List.map_cons, List.find?, e1, e2, lookupKey]
      exact ih ht

theorem lookupKey_map_update_self (m : List (String × PProp)) (k : String)
    (v : PProp) :
    lookupKey k (m.map (fun kv => if kv.1 = k then (k, v) else kv)) =
      if m.any (fun kv => kv.1 = k) then some v else none := by
  induction m with
  | nil => rfl
  | cons kv t ih =>
    by_cases h : kv.1 = k
    · simp [lookupKey, List.find?, h]
    · have e2 : (decide (kv.1 = k)) = false := by simp [h]
      simp only [List.map_cons, if_neg h, List.any_cons, e2, Bool.false_or,
        lookupKey, List.find?]
      exact ih

theorem lookupKey_map_update_other (m : List (String × PProp)) {k k' : String}
    (v : PProp) (hne : k' ≠ k) :
    lookupKey k' (m.map (fun kv => if kv.1 = k then (k, v) else kv)) =
      lookupKey k' m := by
  induction m with
  | nil => rfl
  | cons kv t ih =>
    by_cases h : kv.1 = k
    · have e1 : (decide (k = k')) = false := by simp [Ne.symm hne]
      have e2 : (decide (kv.1 = k')) = false := by simp [h, Ne.symm hne]
      simp only [List.map_cons, if_pos h, lookupKey, List.find?, e1, e2]
      exact ih
    · by_cases h' : kv.1 = k'
      · have e2 : (decide (kv.1 = k')) = true := by simp [h']
        simp only [List.map_cons, if_neg h, lookupKey, List.find?, e2]
      · have e2 : (decide (kv.1 = k')) = false := by simp [h']
        simp only [List.map_cons, if_neg h, lookupKey, List.find?, e2]
        exact ih

theorem lookupKey_append_last (m : List (String × PProp)) (k : String)
    (v : PProp) (hnone : lookupKey k m = none) :
    lookupKey k (m ++ [(k, v)]) = some v := by
  induction m with
  | nil => simp [lookupKey, List.find?]
  | cons kv t ih =>
    by_cases h : kv.1 = k
    · simp [lookupKey, List.find?, h] at hnone
    · have e2 : (decide (kv.1 = k)) = false := by simp [h]
      simp only [lookupKey, List.cons_append, List.find?, e2] at hnone ⊢
      exact ih hnone

theorem lookupKey_append_other (m : List (String × PProp)) {k k' : String}
    (v : PProp) (hne : k' ≠ k) :
    lookupKey k' (m ++ [(k, v)]) = lookupKey k' m := by
  induction m with
  | nil => simp [lookupKey, List.find?, Ne.symm hne]
  | cons kv t ih =>
    by_cases h' : kv.1 = k'
    · simp [lookupKey, List.find?, h']
    · have e2 : (decide (kv.1 = k')) = false := by simp [h']
      simp only [lookupKey, List.cons_append, List.find?, e2] at ih ⊢
      exact ih

theorem any_eq_false_of_lookupKey_none {m : List (String × PProp)} {k : String}
    (h : (m.any fun kv => kv.1 = k) = false) : lookupKey k m = none := by
  induction m with
  | nil => rfl
  | cons kv t ih =>
    simp only [List.any_cons, Bool.or_eq_false_iff] at h
    simp only [lookupKey, List.find?, h.1]
    exact ih h.2

theorem lookupKey_jsObjSet_self (m : List (String × PProp)) (k : String)
    (v : PProp) : lookupKey k (jsObjSet m k v) = some v := by
  unfold jsObjSet
  split
  · next hany => rw [lookupKey_map_update_self, if_pos hany]
  · next hany =>
    exact lookupKey_append_last m k v
      (any_eq_false_of_lookupKey_none (Bool.of_not_eq_true hany))

theorem lookupKey_jsObjSet_other (m : List (String × PProp)) {k k' : String}
    (v : PProp) (hne : k' ≠ k) :
    lookupKey k' (jsObjSet m k v) = lookupKey k' m := by
  unfold jsObjSet
  split
  · exact lookupKey_map_update_other m v hne
  · exact lookupKey_append_other m v hne

theorem getLast?_cons_or {α : Type} (p : α) (l : List α) (z : Option α) :
    ((p :: l).getLast?).or z = (l.getLast?).or ((some p).or z) := by
  induction l using List.reverseRecOn with
  | nil => rfl
  | append_singleton l' b _ =>
    rw [show p :: (l' ++ [b]) = (p :: l') ++ [b] from rfl]
    rw [List.getLast?_concat, List.getLast?_concat]
    rfl

theorem getLast?_append_or {α : Type} (l1 l2 : List α) (z : Option α) :
    ((l1 ++ l2).getLast?).or z = (l2.getLast?).or ((l1.getLast?).or z) := by
  induction l2 using List.reverseRecOn with
  | nil => simp
  | append_singleton l' b _ =>
    rw [← List.append_assoc, List.getLast?_concat, List.getLast?_concat]
    rfl

theorem lookupKey_replayProps (ps : List PProp) (m : List (String × PProp))
    (k : String) :
    lookupKey k (replayProps m ps) =
      ((ps.filter (fun p => p.name = k)).getLast?).or (lookupKey k m) := by
  induction ps generalizing m with
  | nil => rfl
  | cons p t ih =>
    show lookupKey k (replayProps (jsObjSet m p.name p) t) = _
    rw [ih]
    by_cases h : p.name = k
    · rw [List.filter_cons_of_pos (by simp [h]), getLast?_cons_or]
      rw [show jsObjSet m p.name p = jsObjSet m k p from h ▸ rfl,
        lookupKey_jsObjSet_self m k p]
      rfl
    · rw [List.filter_cons_of_neg (by simp [h])]
      rw [lookupKey_jsObjSet_other m p (fun hk => h hk.symm)]

theorem lookupKey_entryFold (es : List Entry) (m : List (String × PProp))
    (k : String) :
    lookupKey k (es.foldl (fun m e => replayProps m e.props) m) =
      (((es.flatMap (fun e => e.props)).filter (fun p => p.name = k)).getLast?).or
        (lookupKey k m) := by
  induction es generalizing m with
  | nil => rfl
  | cons e t ih =>
    show lookupKey k
        (t.foldl (fun m e => replayProps m e.props) (replayProps m e.props)) = _
    rw [ih, List.flatMap_cons, List.filter_append, getLast?_append_or,
      lookupKey_replayProps]

theorem insertStable_rightmost (a : Entry) (acc : List Entry)
    (h : ∀ b ∈ acc, entryLE b a = true) : insertStable a acc = acc ++ [a] := by
  induction acc with
  | nil => rfl
  | cons b t ih =>
    unfold insertStable
    rw [if_pos (h b (List.mem_cons_self b t))]
    rw [ih (fun x hx => h x (List.mem_cons_of_mem b hx))]
    rfl

theorem sortedEntries_of_sorted (es : List Entry)
    (h : es.Pairwise (fun a b => entryWeight a < entryWeight b)) :
    sortedEntries es = es := by
  induction es using List.reverseRecOn with
  | nil => rfl
  | append_singleton l a ih =>
    have hp := List.pairwise_append.mp h
    unfold sortedEntries
    rw [List.foldl_append]
    show insertStable a (sortedEntries l) = l ++ [a]
    rw [ih hp.1]
    exact insertStable_rightmost a l (fun b hb => by
      have := hp.2.2 b hb a (List.mem_singleton_self a)
      simp [entryLE, le_of_lt this])

/-! ## Claim C1: override order in the unique property view -/

/-- Board file declaration of property p, with entry sequence number 1000001
    (a board file with more than a million entries). -/
def c1BoardProp : PProp := ⟨"p", [], [PV.str "board-value"]⟩

/-- Overlay declaration of the same property p on the same node. -/
def c1OverlayProp : PProp := ⟨"p", [], [PV.str "overlay-value"]⟩

/-- The node entry list: the board entry (priority 0, sequence number
    1000001) was pushed first, the overlay entry (priority 1, sequence
    number 0) second. -/
def c1Entries : List Entry :=
  [⟨0, none, [], [c1BoardProp], 1000001, 0, none⟩,
   ⟨0, none, [], [c1OverlayProp], 0, 1, none⟩]

/-- C1 counterexample: the claim says the unique view always returns the
    last overlay declaration of p, but with the weighted comparator
    1000000 * priority + number the board entry with sequence number 1000001
    outweighs the overlay entry with sequence number 0, so the board
    declaration shadows the overlay one. -/
theorem c1_counterexample :
    nodeProperty "p" c1Entries = some c1BoardProp ∧
    nodeProperty "p" c1Entries ≠ some c1OverlayProp := by
  constructor
  · rfl
  · decide

/-- C1 (amended): provided every entry sequence number is below 1000000 (the
    weight the comparator gives one file priority step) and the entries sit
    in replay order (file priority first, sequence number second), the unique
    view returns the last declaration of P in replay order; hence with the
    entries split as board entries followed by overlay entries, the last
    overlay declaration of P wins and the board declaration is only returned
    when no overlay declares P. -/
theorem c1_last_file_wins (es : List Entry) (P : String)
    (hnum : ∀ e ∈ es, e.number < 1000000)
    (hord : es.Pairwise (fun a b => a.filePriority < b.filePriority ∨
      (a.filePriority = b.filePriority ∧ a.number < b.number))) :
    nodeProperty P es = (declsOf P es).getLast? ∧
    (∀ bs os, es = bs ++ os →
      (declsOf P os ≠ [] → nodeProperty P es = (declsOf P os).getLast?) ∧
      (declsOf P os = [] → nodeProperty P es = (declsOf P bs).getLast?)) := by
  have hw : es.Pairwise (fun a b => entryWeight a < entryWeight b) := by
    refine List.Pairwise.imp_of_mem ?_ hord
    intro a b ha hb hab
    have hna := hnum a ha
    unfold entryWeight
    rcases hab with h | ⟨h1, h2⟩
    · omega
    · omega
  have hmain : nodeProperty P es = (declsOf P es).getLast? := by
    unfold nodeProperty
    rw [find?_values_eq_lookupKey (wfMap_uniqueProperties es)]
    unfold uniqueProperties
    rw [sortedEntries_of_sorted es hw, lookupKey_entryFold]
    show ((declsOf P es).getLast?).or (lookupKey P []) = _
    simp [lookupKey, List.find?]
  refine ⟨hmain, ?_⟩
  intro bs os heq
  have h1 : declsOf P es = declsOf P bs ++ declsOf P os := by
    rw [heq]
    unfold declsOf
    rw [List.flatMap_append, List.filter_append]
  have key : (declsOf P es).getLast? =
      ((declsOf P os).getLast?).or ((declsOf P bs).getLast?) := by
    rw [h1]
    have h2 := getLast?_append_or (declsOf P bs) (declsOf P os) none
    simp only [Option.or_none] at h2
    exact h2
  constructor
  · intro hne
    obtain ⟨x, hx⟩ := Option.isSome_iff_exists.mp
      (List.getLast?_isSome.mpr hne)
    rw [hmain, key, hx]
    rfl
  · intro hnil
    rw [hmain, key, hnil]
    rfl

/-- Board entry for the witness: priority 0, sequence number 0. -/
def c1wEntries : List Entry :=
  [⟨0, none, [], [⟨"p", [], [PV.str "b"]⟩], 0, 0, none⟩,
   ⟨0, none, [], [⟨"p", [], [PV.str "o"]⟩], 0, 1, none⟩]

/-- Witness for c1_last_file_wins at a concrete board entry plus one overlay
    entry, both declaring p: the overlay declaration wins. -/
theorem c1_last_file_wins_witness :
    nodeProperty "p" c1wEntries = some ⟨"p", [], [PV.str "o"]⟩ := by
  have h := c1_last_file_wins c1wEntries "p" (by decide) (by decide)
  have h2 := (h.2 [⟨0, none, [], [⟨"p", [], [PV.str "b"]⟩], 0, 0, none⟩]
    [⟨0, none, [], [⟨"p", [], [PV.str "o"]⟩], 0, 1, none⟩] rfl).1 (by decide)
  rw [h2]
  rfl

/-! ## Claim C10: Node.enabled -/

/-- A node whose unique-view status property is the empty string. -/
def c10Node : NodeD :=
  ⟨[⟨0, none, [], [⟨"status", [], [PV.str ""]⟩], 0, 0, none⟩], false⟩

/-- C10 counterexample: the status property exists as a single string value,
    the empty string, which differs from both okay and ok, so the claim says
    enabled() returns false; the code treats the empty string as falsy in
    !status?.string and returns true. -/
theorem c10_counterexample :
    nodeProperty "status" c10Node.entries =
      some ⟨"status", [], [PV.str ""]⟩ ∧
    enabled c10Node = true := by
  constructor
  · rfl
  · rfl

/-- C10 (amended): enabled() returns false exactly when the unique-view
    status property exists as a single nonempty string different from both
    okay and ok; in every other case it returns true, and the delete-node
    tombstone never changes the result. -/
theorem enabledBool_spec (sstr : Option String) :
    (jsFalsyStr sstr || (sstr = some "okay" || sstr = some "ok")) = false ↔
      ∃ s, sstr = some s ∧ s ≠ "" ∧ s ≠ "okay" ∧ s ≠ "ok" := by
  cases sstr with
  | none => simp [jsFalsyStr]
  | some s =>
    by_cases h0 : s = ""
    · subst h0
      simp [jsFalsyStr]
    · by_cases h1 : s = "okay"
      · subst h1
        simp [jsFalsyStr]
      · by_cases h2 : s = "ok"
        · subst h2
          simp [jsFalsyStr]
        · simp [jsFalsyStr, h0, h1, h2]

theorem c10_enabled_characterization (n : NodeD) :
    (enabled n = false ↔
      ∃ s, (nodeProperty "status" n.entries).bind
          (fun p => stringAcc p.value) = some s ∧
        s ≠ "" ∧ s ≠ "okay" ∧ s ≠ "ok") ∧
    (∀ d : Bool, enabled ⟨n.entries, d⟩ = enabled n) := by
  constructor
  · exact enabledBool_spec
      ((nodeProperty "status" n.entries).bind (fun p => stringAcc p.value))
  · intro d
    rfl

/-- Witness for c10_enabled_characterization: a node disabled through
    status = "disabled" evaluates to enabled() = false. -/
def c10wNode : NodeD :=
  ⟨[⟨0, none, [], [⟨"status", [], [PV.str "disabled"]⟩], 0, 0, none⟩], false⟩

theorem c10_enabled_characterization_witness : enabled c10wNode = false := by
  exact (c10_enabled_characterization c10wNode).1.mpr
    ⟨"disabled", rfl, by decide, by decide, by decide⟩

/-! ## Claim C9: the typed accessors are total and shape sound -/

theorem entLoop_cells_int (fuel : Nat) :
    ∀ (cs : List Cell) (acc : List PHEntry),
    (∀ e ∈ acc, e.cells.all Cell.isIntValue = true) →
    ∀ e ∈ entLoop fuel cs acc, e.cells.all Cell.isIntValue = true := by
  induction fuel with
  | zero =>
    intro cs acc hacc e he
    exact hacc e he
  | succ fuel ih =>
    intro cs acc hacc e he
    cases cs with
    | nil => exact hacc e he
    | cons target rest =>
      unfold entLoop at he
      cases htv : target.phVal with
      | none =>
        simp only [htv] at he
        exact hacc e he
      | some tv =>
        simp only [htv] at he
        by_cases hany :
            ((rest.take (entCount rest)).any fun c => !c.isIntValue) = true
        · rw [if_pos hany] at he
          exact hacc e he
        · rw [if_neg hany] at he
          refine ih _ _ ?_ e he
          intro x hx
          rcases List.mem_append.mp hx with hx | hx
          · exact hacc x hx
          · simp only [List.mem_singleton] at hx
            subst hx
            simp only [List.all_eq_true]
            intro c hc
            by_contra hci
            exact hany (List.any_eq_true.mpr ⟨c, hc, by simp [hci]⟩)

theorem entFold_cells_int (avs : List (List Cell)) :
    ∀ (acc : List PHEntry),
    (∀ e ∈ acc, e.cells.all Cell.isIntValue = true) →
    ∀ e ∈ avs.foldl (fun acc cs => entLoop (cs.length + 1) cs acc) acc,
      e.cells.all Cell.isIntValue = true := by
  induction avs with
  | nil =>
    intro acc hacc e he
    exact hacc e he
  | cons cs t ih =>
    intro acc hacc e he
    exact ih _ (entLoop_cells_int _ _ _ hacc) e he

/-- C9: every typed accessor on Property is total over any parsed value list
    and returns either an absent result or a value of its advertised shape:
    boolean only the presence flag, number the single int cell of a single
    array, string the single string value, pHandle a phandle wrapped in an
    array or bare, bytestring the byte list, array and arrays all-int cell
    lists, pHandles phandle lists, pHandleArray the cell lists of an
    all-array value list, stringArray the strings of an all-string value
    list, and entries target/cell groups whose cells are all ints.  The
    accessors are total functions, so none of them can throw. -/
theorem c9_typed_accessors_shape (vs : List PV) :
    (∀ b, booleanAcc vs = some b → b = true ∧ vs = [PV.boolv]) ∧
    (∀ n, numberAcc vs = some n →
      ∃ c, vs = [PV.arr [c]] ∧ c.isIntValue = true ∧ c.val = n) ∧
    (∀ s, stringAcc vs = some s → vs = [PV.str s]) ∧
    (∀ p, pHandleAcc vs = some p →
      vs = [PV.arr [Cell.ph p.1 p.2]] ∨ vs = [PV.ph p.1 p.2]) ∧
    (∀ bs, bytestringAcc vs = some bs → vs = [PV.bytes bs]) ∧
    (∀ l, arrayAcc vs = some l →
      ∃ cs, vs = [PV.arr cs] ∧ cs.all Cell.isIntValue = true ∧
        l = cs.map Cell.val) ∧
    (∀ ls, arraysAcc vs = some ls →
      (vs.all (fun v => v.isArr && v.cellsOf.all Cell.isIntValue)) = true ∧
        ls = vs.map (fun v => v.cellsOf.map Cell.val)) ∧
    (∀ ps, pHandlesAcc vs = some ps →
      (∃ cs, vs = [PV.arr cs] ∧ cs.all Cell.isPHandle = true ∧
          ps = cs.filterMap Cell.phVal) ∨
        (vs.all PV.isPHandle = true ∧ ps = vs.filterMap PV.phVal)) ∧
    (∀ avs, pHandleArrayAcc vs = some avs →
      vs.all PV.isArr = true ∧ avs = vs.map PV.cellsOf) ∧
    (∀ ss, stringArrayAcc vs = some ss →
      vs.all PV.isStr = true ∧ ss = vs.filterMap PV.strVal) ∧
    (∀ es, entriesAcc vs = some es →
      ∀ e ∈ es, e.cells.all Cell.isIntValue = true) := by
  refine ⟨?_, ?_, ?_, ?_, ?_, ?_, ?_, ?_, ?_, ?_, ?_⟩
  · intro b hb
    unfold booleanAcc at hb
    split at hb
    · cases hb
      exact ⟨rfl, rfl⟩
    · cases hb
  · intro n hn
    unfold numberAcc at hn
    split at hn
    · next c =>
      split at hn
      · next hint =>
        cases hn
        exact ⟨c, rfl, hint, rfl⟩
      · cases hn
    · cases hn
  · intro s hs
    unfold stringAcc at hs
    split at hs
    · cases hs
      rfl
    · cases hs
  · intro p hp
    unfold pHandleAcc at hp
    split at hp
    · cases hp
      exact Or.inl rfl
    · cases hp
      exact Or.inr rfl
    · cases hp
  · intro bs hbs
    unfold bytestringAcc at hbs
    split at hbs
    · cases hbs
      rfl
    · cases hbs
  · intro l hl
    unfold arrayAcc at hl
    split at hl
    · next cs =>
      split at hl
      · next hall =>
        cases hl
        exact ⟨cs, rfl, hall, rfl⟩
      · cases hl
    · cases hl
  · intro ls hls
    unfold arraysAcc at hls
    split at hls
    · next hall =>
      cases hls
      exact ⟨hall, rfl⟩
    · cases hls
  · intro ps hps
    unfold pHandlesAcc at hps
    split at hps
    · next hguard =>
      simp only [Bool.and_eq_true, decide_eq_true_eq] at hguard
      obtain ⟨⟨hlen, hisarr⟩, hall⟩ := hguard
      cases vs with
      | nil => simp at hlen
      | cons v t =>
        cases t with
        | nil =>
          cases v with
          | arr cs =>
            cases hps
            exact Or.inl ⟨cs, rfl, by simpa [PV.cellsOf, List.headD] using hall,
              by simp [PV.cellsOf, List.headD]⟩
          | str s => simp [List.headD, PV.isArr] at hisarr
          | boolv => simp [List.headD, PV.isArr] at hisarr
          | bytes bs => simp [List.headD, PV.isArr] at hisarr
          | ph r k => simp [List.headD, PV.isArr] at hisarr
        | cons _ _ => simp at hlen
    · split at hps
      · next hall =>
        cases hps
        exact Or.inr ⟨hall, rfl⟩
      · cases hps
  · intro avs havs
    unfold pHandleArrayAcc at havs
    split at havs
    · next hall =>
      cases havs
      exact ⟨hall, rfl⟩
    · cases havs
  · intro ss hss
    unfold stringArrayAcc at hss
    split at hss
    · next hall =>
      cases hss
      exact ⟨hall, rfl⟩
    · cases hss
  · intro es hes
    unfold entriesAcc at hes
    cases hpa : pHandleArrayAcc vs with
    | none =>
      simp only [hpa] at hes
      cases hes
    | some avs =>
      simp only [hpa] at hes
      by_cases hemp : avs.isEmpty = true
      · rw [if_pos hemp] at hes
        cases hes
      · rw [if_neg hemp] at hes
        cases hes
        exact entFold_cells_int avs [] (by intro e he; cases he)

/-- Witness for c9_typed_accessors_shape at concrete inputs: the number
    accessor on a single one-cell array yields the cell value, and the
    string accessor result pins the value list. -/
theorem c9_typed_accessors_shape_witness :
    (∃ c, [PV.arr [Cell.int 5 false]] = [PV.arr [c]] ∧ c.isIntValue = true ∧
      c.val = 5) ∧ [PV.str "ok"] = [PV.str "ok"] := by
  refine ⟨(c9_typed_accessors_shape [PV.arr [Cell.int 5 false]]).2.1 5 rfl, ?_⟩
  exact (c9_typed_accessors_shape [PV.str "ok"]).2.2.1 "ok" rfl

/-! ## The node graph construction state machine (Parser.parse, dts.ts)

  The while loop of Parser.parse dispatches on the construct found at the
  cursor; each construct is one Event here, and step is the corresponding
  handler body.  The state carries the shared context registry (ctx.nodes),
  the arena of Node objects ever allocated (object identity is an arena
  index), the entries created so far, the node stack (entry indices), the
  pending labels, the per-file entry counter, the file priority of the file
  being parsed, and the diagnostics pushed so far (their messages). -/

structure NodeData where
  name : String
  fullName : String
  path : String
  deleted : Bool
deriving DecidableEq, Repr

structure PState where
  nodes : List (String × Nat)
  arena : List NodeData
  entries : List Entry
  stack : List Nat
  pendingLabels : List String
  entryCount : Nat
  filePriority : Nat
  diags : List String
deriving DecidableEq, Repr

/-- String startsWith, implemented on the character list so that it reduces
    in the kernel. -/
def strStartsWith (s pre : String) : Bool := pre.data.isPrefixOf s.data

/-- String endsWith, implemented on the character list. -/
def strEndsWith (s suf : String) : Bool := suf.data.isSuffixOf s.data

/-- String drop, implemented on the character list. -/
def strDrop (s : String) (n : Nat) : String := String.mk (s.data.drop n)

/-- Registry lookup ctx.nodes[path]. -/
def lookupPath (m : List (String × Nat)) (p : String) : Option Nat :=
  (m.find? (fun kv => kv.1 = p)).map Prod.snd

/-- Node.hasLabel: some entry of the node carries the label. -/
def hasLabel (s : PState) (i : Nat) (l : String) : Bool :=
  s.entries.any (fun e => e.nodeId = i && e.labels.any (fun x => x = l))

/-- The label branch of DTSCtx.node: the first registered node with the
    label (Object.values insertion order). -/
def labelFind (s : PState) (l : String) : Option Nat :=
  (s.nodes.find? (fun kv => hasLabel s kv.2 l)).map Prod.snd

/-- Group 1 of the path-reference pattern: the characters after the two
    leading reference characters and before the last closing brace (the
    greedy group), or none when no closing brace follows. -/
def extractBraced (name : String) : Option String :=
  let cs := (strDrop name 2).toList
  match cs.reverse.findIdx? (fun c => c = Char.ofNat 125) with
  | none => none
  | some k => some (String.mk (cs.take (cs.length - 1 - k)))

/-- The path tail of DTSCtx.node: append a trailing slash when missing,
    prefix the parent path when scoped, and look the result up. -/
def pathQuery (s : PState) (n : String) (parentPath : Option String) :
    Option Nat :=
  let n1 := if strEndsWith n "/" then n else n ++ "/"
  let n2 := match parentPath with
    | some pp => pp ++ n1
    | none => n1
  lookupPath s.nodes n2

/-- DTSCtx.node(name, parent): path references are unwrapped, ampersand
    references resolve through labels, anything else is a path lookup. -/
def ctxNode (s : PState) (name : String) (parentPath : Option String) :
    Option Nat :=
  if strStartsWith name "&\x7b" then
    match extractBraced name with
    | none => none
    | some inner => pathQuery s inner parentPath
  else if strStartsWith name "&" then labelFind s (strDrop name 1)
  else pathQuery s name parentPath

/-- The Node constructor: the computed (path, fullName) from the name, the
    optional unit address and the parent path from the node stack. -/
def nodePathOf (name : String) (addr : Option String)
    (parentPath : Option String) : String × String :=
  let fullName := match addr with
    | some a => name ++ "@" ++ a
    | none => name
  match parentPath with
  | some pp => (pp ++ fullName ++ "/", fullName)
  | none => if strStartsWith name "&" then (fullName, fullName) else ("/", "/")

/-- The constructs the Parser.parse loop dispatches on. -/
inductive Event where
  | label (l : String)
  | nodeOpen (name : String) (addr : Option String)
  | refOpen (r : String)
  | propertyDecl (name : String) (value : List PV)
  | deleteNode (name : String)
  | deleteProp (name : String)
  | rootOpen
  | close
deriving DecidableEq, Repr

/-- The entry under the stack top. -/
def topEntry (s : PState) : Option Entry :=
  s.stack.head?.bind (fun ei => s.entries.get? ei)

/-- The node path of the stack top entry. -/
def topNodePath (s : PState) : Option String :=
  (topEntry s).bind (fun e => (s.arena.get? e.nodeId).map (fun nd => nd.path))

/-- Node.properties(): the properties of all entries of the node, in entry
    push order. -/
def nodePropsOf (s : PState) (i : Nat) : List PProp :=
  (s.entries.filter (fun e => e.nodeId = i)).flatMap (fun e => e.props)

/-- Node.entries for node i, in push order. -/
def entriesOfNode (s : PState) (i : Nat) : List Entry :=
  s.entries.filter (fun e => e.nodeId = i)

/-- The shared tail of the node-open and reference-open handlers: allocate
    the NodeEntry, give it the pending labels, attach it to the node and the
    file, push it on the node stack and bump the entry counter. -/
def attachEntry (s : PState) (i : Nat) (ref : Option String)
    (parent : Option Nat) : PState :=
  { s with
    entries := s.entries ++ [⟨i, ref, s.pendingLabels, [], s.entryCount,
      s.filePriority, parent⟩],
    stack := s.entries.length :: s.stack,
    entryCount := s.entryCount + 1,
    pendingLabels := [] }

/-- The node lookup of the delete-node handler: ampersand references and
    top-level deletes resolve globally, nested ones are scoped to the
    current node. -/
def deleteNodeTarget (s : PState) (name : String) : Option Nat :=
  if strStartsWith name "&" || s.stack.isEmpty then ctxNode s name none
  else ctxNode s name (topNodePath s)

/-- One iteration of the Parser.parse loop. -/
def step (s : PState) : Event → PState
  | .label l => { s with pendingLabels := s.pendingLabels ++ [l] }
  | .nodeOpen name addr =>
    let pf := nodePathOf name addr (topNodePath s)
    match lookupPath s.nodes pf.1 with
    | some i => attachEntry s i none s.stack.head?
    | none =>
      let i := s.arena.length
      let s1 : PState :=
        { s with
          arena := s.arena ++ [⟨name, pf.2, pf.1, false⟩],
          nodes := s.nodes ++ [(pf.1, i)] }
      attachEntry s1 i none s.stack.head?
  | .refOpen r =>
    match ctxNode s r none with
    | some i => attachEntry s i (some r) none
    | none =>
      let i := s.arena.length
      let s1 : PState :=
        { s with
          arena := s.arena ++ [⟨r, r, r, false⟩],
          diags := s.diags ++ ["Unknown label"] }
      attachEntry s1 i (some r) none
  | .propertyDecl name vs =>
    match s.stack.head? with
    | some ei =>
      match s.entries.get? ei with
      | some e =>
        { s with
          entries := s.entries.set ei
            { e with props := e.props ++ [⟨name, s.pendingLabels, vs⟩] },
          pendingLabels := [] }
      | none => s
    | none => { s with diags := s.diags ++ ["Property outside of node context"] }
  | .deleteNode name =>
    match deleteNodeTarget s name with
    | some i =>
      match s.arena.get? i with
      | some nd => { s with arena := s.arena.set i { nd with deleted := true } }
      | none => s
    | none => { s with diags := s.diags ++ ["Unknown node"] }
  | .deleteProp _ =>
    match s.stack.head? with
    | none =>
      { s with diags := s.diags ++ ["Can only delete properties inside a node"] }
    | some ei =>
      match s.entries.get? ei with
      | none => s
      | some e =>
        match (nodePropsOf s e.nodeId).find?
            (fun p => p.name = "/delete-property/") with
        | none => { s with diags := s.diags ++ ["Unknown property"] }
        | some _ => s
  | .rootOpen =>
    let s1 : PState := match lookupPath s.nodes "/" with
      | some _ => s
      | none =>
        { s with
          arena := s.arena ++ [⟨"", "/", "/", false⟩],
          nodes := s.nodes ++ [("/", s.arena.length)] }
    match lookupPath s1.nodes "/" with
    | some i =>
      { s1 with
        entries := s1.entries ++ [⟨i, none, [], [], s1.entryCount,
          s1.filePriority, none⟩],
        stack := s1.entries.length :: s1.stack,
        entryCount := s1.entryCount + 1 }
    | none => s1
  | .close =>
    match s.stack with
    | _ :: t => { s with stack := t }
    | [] => { s with diags := s.diags ++ ["Unexpected closing bracket"] }

/-- A whole file parse: fold the handler over the construct stream. -/
def run (s : PState) (evs : List Event) : PState := evs.foldl step s

/-- The state of a fresh context before any file is parsed. -/
def initState : PState := ⟨[], [], [], [], [], 0, 0, []⟩

/-! ## Claim C2: registry path uniqueness -/

theorem get?_append_some {α : Type} {l : List α} (l2 : List α) {i : Nat}
    {a : α} (h : l.get? i = some a) : (l ++ l2).get? i = some a := by
  induction l generalizing i with
  | nil => cases h
  | cons b t ih =>
    cases i with
    | zero => exact h
    | succ j => exact ih h

theorem lt_of_get?_some {α : Type} {l : List α} {i : Nat} {a : α}
    (h : l.get? i = some a) : i < l.length := by
  induction l generalizing i with
  | nil => cases h
  | cons b t ih =>
    cases i with
    | zero => simp
    | succ j => exact Nat.succ_lt_succ (ih h)

theorem lookupPath_some_mem {m : List (String × Nat)} {p : String} {i : Nat}
    (h : lookupPath m p = some i) : ∃ kv ∈ m, kv.1 = p ∧ kv.2 = i := by
  unfold lookupPath at h
  cases hf : m.find? (fun kv => kv.1 = p) with
  | none => rw [hf] at h; cases h
  | some kv =>
    rw [hf] at h
    refine ⟨kv, List.mem_of_find?_eq_some hf, ?_, ?_⟩
    · have := List.find?_some hf
      simpa using this
    · cases h; rfl

theorem lookupPath_append_left {m : List (String × Nat)}
    (l2 : List (String × Nat)) {p : String} {i : Nat}
    (h : lookupPath m p = some i) : lookupPath (m ++ l2) p = some i := by
  unfold lookupPath at h ⊢
  rw [List.find?_append]
  cases hf : m.find? (fun kv => kv.1 = p) with
  | none => rw [hf] at h; cases h
  | some kv => rw [hf] at h; simpa using h

theorem lookupPath_append_right {m : List (String × Nat)} {p : String}
    (h : lookupPath m p = none) (x : Nat) :
    lookupPath (m ++ [(p, x)]) p = some x := by
  unfold lookupPath at h ⊢
  rw [List.find?_append]
  cases hf : m.find? (fun kv => kv.1 = p) with
  | some kv => rw [hf] at h; cases h
  | none => simp [List.find?]

theorem not_mem_keys_of_lookup_none {m : List (String × Nat)} {p : String}
    (h : lookupPath m p = none) : p ∉ m.map Prod.fst := by
  intro hmem
  rcases List.mem_map.mp hmem with ⟨kv, hkv, hfst⟩
  unfold lookupPath at h
  cases hf : m.find? (fun kv => kv.1 = p) with
  | some kv' => rw [hf] at h; cases h
  | none =>
    have := List.find?_eq_none.mp hf kv hkv
    simp [hfst] at this

/-- The registry and entry invariant of one context: registry keys are
    unique, every registered node object has the registered path, and every
    entry created by a node-open or root-open (ref = none) points at the
    node registered under its own path. -/
def RegInv (s : PState) : Prop :=
  (s.nodes.map Prod.fst).Nodup ∧
  (∀ kv ∈ s.nodes, ∃ nd, s.arena.get? kv.2 = some nd ∧ nd.path = kv.1) ∧
  (∀ e ∈ s.entries, e.ref = none →
    ∃ nd, s.arena.get? e.nodeId = some nd ∧
      lookupPath s.nodes nd.path = some e.nodeId)

theorem regInv_step (s : PState) (ev : Event) (h : RegInv s) :
    RegInv (step s ev) := by
  obtain ⟨h1, h2, h3⟩ := h
  cases ev with
  | label l => exact ⟨h1, h2, h3⟩
  | close =>
    cases hs : s.stack with
    | nil =>
      simp only [step, hs]
      exact ⟨h1, h2, h3⟩
    | cons a t =>
      simp only [step, hs]
      exact ⟨h1, h2, h3⟩
  | nodeOpen name addr =>
    cases hl : lookupPath s.nodes (nodePathOf name addr (topNodePath s)).1 with
    | some i =>
      simp only [step, hl, attachEntry]
      refine ⟨h1, h2, ?_⟩
      intro e he href
      rcases List.mem_append.mp he with he | he
      · exact h3 e he href
      · simp only [List.mem_singleton] at he
        subst he
        obtain ⟨kv, hkvmem, hkv1, hkv2⟩ := lookupPath_some_mem hl
        obtain ⟨nd, hnd, hpath⟩ := h2 kv hkvmem
        subst hkv2
        refine ⟨nd, hnd, ?_⟩
        rw [hpath, hkv1]
        exact hl
    | none =>
      simp only [step, hl, attachEntry]
      refine ⟨?_, ?_, ?_⟩
      · rw [List.map_append]
        refine List.Nodup.append h1 (List.nodup_singleton _) ?_
        intro a ha hb
        simp only [List.map_cons, List.map_nil, List.mem_singleton] at hb
        subst hb
        exact not_mem_keys_of_lookup_none hl ha
      · intro kv hkv
        rcases List.mem_append.mp hkv with hkv | hkv
        · obtain ⟨nd, hnd, hp⟩ := h2 kv hkv
          exact ⟨nd, get?_append_some _ hnd, hp⟩
        · simp only [List.mem_singleton] at hkv
          subst hkv
          exact ⟨_, List.get?_concat_length _ _, rfl⟩
      · intro e he href
        rcases List.mem_append.mp he with he | he
        · obtain ⟨nd, hnd, hlp⟩ := h3 e he href
          exact ⟨nd, get?_append_some _ hnd, lookupPath_append_left _ hlp⟩
        · simp only [List.mem_singleton] at he
          subst he
          exact ⟨_, List.get?_concat_length _ _,
            lookupPath_append_right hl s.arena.length⟩
  | refOpen r =>
    cases hc : ctxNode s r none with
    | some i =>
      simp only [step, hc, attachEntry]
      refine ⟨h1, h2, ?_⟩
      intro e he href
      rcases List.mem_append.mp he with he | he
      · exact h3 e he href
      · simp only [List.mem_singleton] at he
        subst he
        cases href
    | none =>
      simp only [step, hc, attachEntry]
      refine ⟨h1, ?_, ?_⟩
      · intro kv hkv
        obtain ⟨nd, hnd, hp⟩ := h2 kv hkv
        exact ⟨nd, get?_append_some _ hnd, hp⟩
      · intro e he href
        rcases List.mem_append.mp he with he | he
        · obtain ⟨nd, hnd, hlp⟩ := h3 e he href
          exact ⟨nd, get?_append_some _ hnd, hlp⟩
        · simp only [List.mem_singleton] at he
          subst he
          cases href
  | propertyDecl name vs =>
    cases hh : s.stack.head? with
    | none =>
      simp only [step, hh]
      exact ⟨h1, h2, h3⟩
    | some ei =>
      cases hg : s.entries.get? ei with
      | none =>
        simp only [step, hh, hg]
        exact ⟨h1, h2, h3⟩
      | some e0 =>
        simp only [step, hh, hg]
        refine ⟨h1, h2, ?_⟩
        intro e he href
        rcases List.mem_or_eq_of_mem_set he with he | he
        · exact h3 e he href
        · subst he
          have he0 : e0 ∈ s.entries := List.get?_mem hg
          obtain ⟨nd, hnd, hlp⟩ := h3 e0 he0 href
          exact ⟨nd, hnd, hlp⟩
  | deleteNode name =>
    cases hn : deleteNodeTarget s name with
    | none =>
      simp only [step, hn]
      exact ⟨h1, h2, h3⟩
    | some i =>
      cases ha : s.arena.get? i with
      | none =>
        simp only [step, hn, ha]
        exact ⟨h1, h2, h3⟩
      | some nd =>
        simp only [step, hn, ha]
        have hlen : i < s.arena.length := lt_of_get?_some ha
        refine ⟨h1, ?_, ?_⟩
        · intro kv hkv
          obtain ⟨nd', hnd', hp⟩ := h2 kv hkv
          by_cases hkvi : kv.2 = i
          · subst hkvi
            rw [ha] at hnd'
            have hnd2 : nd' = nd := Option.some.inj hnd'.symm
            subst hnd2
            refine ⟨{ nd' with deleted := true }, ?_, hp⟩
            rw [List.get?_set_eq]
            simp [hlen]
          · refine ⟨nd', ?_, hp⟩
            rw [List.get?_set_ne _ _ (fun hi => hkvi hi.symm)]
            exact hnd'
        · intro e he href
          obtain ⟨nd', hnd', hlp⟩ := h3 e he href
          by_cases hei : e.nodeId = i
          · rw [hei] at hnd' ⊢
            rw [ha] at hnd'
            have hnd2 : nd' = nd := Option.some.inj hnd'.symm
            subst hnd2
            refine ⟨{ nd' with deleted := true }, ?_, ?_⟩
            · rw [List.get?_set_eq]
              simp [hlen]
            · rw [← hei]
              exact hlp
          · refine ⟨nd', ?_, hlp⟩
            rw [List.get?_set_ne _ _ (fun hi => hei hi.symm)]
            exact hnd'
  | deleteProp name =>
    cases hh : s.stack.head? with
    | none =>
      simp only [step, hh]
      exact ⟨h1, h2, h3⟩
    | some ei =>
      cases hg : s.entries.get? ei with
      | none =>
        simp only [step, hh, hg]
        exact ⟨h1, h2, h3⟩
      | some e0 =>
        cases hf : (nodePropsOf s e0.nodeId).find?
            (fun p => p.name = "/delete-property/") with
        | none =>
          simp only [step, hh, hg, hf]
          exact ⟨h1, h2, h3⟩
        | some p =>
          simp only [step, hh, hg, hf]
          exact ⟨h1, h2, h3⟩
  | rootOpen =>
    cases hl : lookupPath s.nodes "/" with
    | some j =>
      simp only [step, hl]
      refine ⟨h1, h2, ?_⟩
      intro e he href
      rcases List.mem_append.mp he with he | he
      · exact h3 e he href
      · simp only [List.mem_singleton] at he
        subst he
        obtain ⟨kv, hkvmem, hkv1, hkv2⟩ := lookupPath_some_mem hl
        obtain ⟨nd, hnd, hpath⟩ := h2 kv hkvmem
        subst hkv2
        refine ⟨nd, hnd, ?_⟩
        rw [hpath, hkv1]
        exact hl
    | none =>
      have hl2 := lookupPath_append_right hl s.arena.length
      simp only [step, hl, hl2]
      refine ⟨?_, ?_, ?_⟩
      · rw [List.map_append]
        refine List.Nodup.append h1 (List.nodup_singleton _) ?_
        intro a ha hb
        simp only [List.map_cons, List.map_nil, List.mem_singleton] at hb
        subst hb
        exact not_mem_keys_of_lookup_none hl ha
      · intro kv hkv
        rcases List.mem_append.mp hkv with hkv | hkv
        · obtain ⟨nd, hnd, hp⟩ := h2 kv hkv
          exact ⟨nd, get?_append_some _ hnd, hp⟩
        · simp only [List.mem_singleton] at hkv
          subst hkv
          exact ⟨_, List.get?_concat_length _ _, rfl⟩
      · intro e he href
        rcases List.mem_append.mp he with he | he
        · obtain ⟨nd, hnd, hlp⟩ := h3 e he href
          exact ⟨nd, get?_append_some _ hnd, lookupPath_append_left _ hlp⟩
        · simp only [List.mem_singleton] at he
          subst he
          exact ⟨_, List.get?_concat_length _ _, hl2⟩

theorem regInv_run (evs : List Event) :
    ∀ s : PState, RegInv s → RegInv (run s evs) := by
  induction evs with
  | nil => intro s h; exact h
  | cons ev t ih => intro s h; exact ih _ (regInv_step s ev h)

theorem regInv_init : RegInv initState := by
  refine ⟨List.nodup_nil, ?_, ?_⟩
  · intro kv hkv
    cases hkv
  · intro e he
    cases he

/-- C2: within one context, after any event stream, the registry is a
    function from paths to node objects whose stored path matches the key;
    any two entries created by node-open or root-open blocks (ref = none)
    whose nodes carry the same path share the same node object; and a
    reference block whose label or path resolves in the registry attaches
    its entry to exactly that node object. -/
theorem c2_path_to_node_uniqueness (evs : List Event) :
    RegInv (run initState evs) ∧
    (∀ e1 e2, e1 ∈ (run initState evs).entries →
      e2 ∈ (run initState evs).entries →
      e1.ref = none → e2.ref = none →
      ((run initState evs).arena.get? e1.nodeId).map NodeData.path =
        ((run initState evs).arena.get? e2.nodeId).map NodeData.path →
      e1.nodeId = e2.nodeId) ∧
    (∀ (s : PState) (r : String) (i : Nat), ctxNode s r none = some i →
      (step s (.refOpen r)).entries.get? s.entries.length =
        some ⟨i, some r, s.pendingLabels, [], s.entryCount,
          s.filePriority, none⟩) := by
  have hinv := regInv_run evs initState regInv_init
  refine ⟨hinv, ?_, ?_⟩
  · intro e1 e2 he1 he2 hr1 hr2 hpath
    obtain ⟨_, _, h3⟩ := hinv
    obtain ⟨nd1, hnd1, hlp1⟩ := h3 e1 he1 hr1
    obtain ⟨nd2, hnd2, hlp2⟩ := h3 e2 he2 hr2
    rw [hnd1, hnd2] at hpath
    have hpp : nd1.path = nd2.path := by
      simpa using hpath
    rw [hpp] at hlp1
    rw [hlp1] at hlp2
    exact Option.some.inj hlp2
  · intro s r i hc
    simp only [step, hc, attachEntry]
    exact List.get?_concat_length _ _

/-- The witness event stream: the same node block path declared twice at the
    top of two root blocks. -/
def c2wEvents : List Event :=
  [.rootOpen, .nodeOpen "x" none, .close, .close,
   .rootOpen, .nodeOpen "x" none, .close, .close]

/-- Witness for c2_path_to_node_uniqueness: in the run over c2wEvents the
    second x entry resolves to the same node object as the first one. -/
theorem c2_path_to_node_uniqueness_witness :
    (⟨1, none, [], [], 1, 0, some 0⟩ : Entry).nodeId =
      (⟨1, none, [], [], 3, 0, some 2⟩ : Entry).nodeId := by
  exact (c2_path_to_node_uniqueness c2wEvents).2.1
    ⟨1, none, [], [], 1, 0, some 0⟩ ⟨1, none, [], [], 3, 0, some 2⟩
    (by decide) (by decide) rfl rfl (by decide)

/-! ## Claim C6: unresolved reference blocks -/

/-- C6: a reference block whose label does not resolve produces exactly one
    Unknown label diagnostic, allocates a placeholder node named after the
    reference (path and fullName equal to the reference text, per the Node
    constructor for ampersand names), attaches the new entry to the
    placeholder, pushes it on the node stack so parsing continues inside the
    block, and a subsequent property declaration in the block is attached to
    that entry without producing any further diagnostic. -/
theorem c6_unknown_label_placeholder (s : PState) (r nm : String)
    (vs : List PV) (hc : ctxNode s r none = none) :
    (step s (.refOpen r)).diags = s.diags ++ ["Unknown label"] ∧
    (step s (.refOpen r)).arena = s.arena ++ [⟨r, r, r, false⟩] ∧
    (step s (.refOpen r)).entries = s.entries ++
      [⟨s.arena.length, some r, s.pendingLabels, [], s.entryCount,
        s.filePriority, none⟩] ∧
    (step s (.refOpen r)).stack = s.entries.length :: s.stack ∧
    (step (step s (.refOpen r)) (.propertyDecl nm vs)).diags =
      (step s (.refOpen r)).diags ∧
    ((step (step s (.refOpen r)) (.propertyDecl nm vs)).entries.get?
        s.entries.length).map Entry.props = some [⟨nm, [], vs⟩] := by
  have hstep : step s (.refOpen r) =
      { s with
        arena := s.arena ++ [⟨r, r, r, false⟩],
        diags := s.diags ++ ["Unknown label"],
        entries := s.entries ++ [⟨s.arena.length, some r, s.pendingLabels, [],
          s.entryCount, s.filePriority, none⟩],
        stack := s.entries.length :: s.stack,
        entryCount := s.entryCount + 1,
        pendingLabels := [] } := by
    simp only [step, hc, attachEntry]
  rw [hstep]
  have hga : (s.entries ++ [(⟨s.arena.length, some r, s.pendingLabels, [],
      s.entryCount, s.filePriority, none⟩ : Entry)]).get? s.entries.length =
      some ⟨s.arena.length, some r, s.pendingLabels, [], s.entryCount,
        s.filePriority, none⟩ := List.get?_concat_length _ _
  refine ⟨rfl, rfl, rfl, rfl, ?_, ?_⟩
  · simp only [step, List.head?, hga]
  · simp only [step, List.head?, hga]
    rw [List.get?_set_eq]
    have hlt : s.entries.length < (s.entries ++ [(⟨s.arena.length, some r,
        s.pendingLabels, [], s.entryCount, s.filePriority, none⟩ :
        Entry)]).length := by
      simp
    simp [hlt]

/-- Witness for c6_unknown_label_placeholder: resolving the unknown label
    foo in a fresh context diagnoses it once. -/
theorem c6_unknown_label_placeholder_witness :
    (step initState (Event.refOpen "&foo")).diags = [] ++ ["Unknown label"] :=
  (c6_unknown_label_placeholder initState "&foo" "status" [PV.str "disabled"]
    (by decide)).1

/-! ## Claim C7: delete-property followed by re-declaration -/

/-- The constructs of the file: a root block holding the directive
    /delete-property/ foo; followed by foo = < 1 >;. -/
def c7Events : List Event :=
  [.rootOpen, .deleteProp "foo",
   .propertyDecl "foo" [PV.arr [Cell.int 1 false]], .close]

/-- C7: after parsing the file, the root entry property list holds exactly
    one foo declaration whose value list is the single array < 1 >, the
    unique view of the root node returns it for foo, and the unique view
    holds no other trace of foo. -/
theorem c7_delete_then_redeclare :
    (((run initState c7Events).entries.get? 0).map Entry.props) =
      some [⟨"foo", [], [PV.arr [Cell.int 1 false]]⟩] ∧
    nodeProperty "foo" (entriesOfNode (run initState c7Events) 0) =
      some ⟨"foo", [], [PV.arr [Cell.int 1 false]]⟩ ∧
    uniqueProperties (entriesOfNode (run initState c7Events) 0) =
      [("foo", ⟨"foo", [], [PV.arr [Cell.int 1 false]]⟩)] := by
  refine ⟨rfl, rfl, rfl⟩

/-! ## Claim C3: reparse with an empty dirty set (DTSFile / DTSCtx.reset /
  DTSCtx.adoptNodes / Parser.reparse) -/

/-- A DTSFile: uri, the dirty flag (initialized true by the field
    initializer, set true again by remove(), and never cleared anywhere in
    the source), its entries and diagnostics, and its priority
    (ctx.fileCount at construction). -/
structure FileM where
  uri : String
  dirty : Bool
  entries : List Entry
  diags : List String
  priority : Nat
deriving DecidableEq, Repr

/-- A DTSCtx: optional board file, ordered overlays, the path registry, the
    arena of node objects ever allocated, and the dirty uri set. -/
structure CtxM where
  boardFile : Option FileM
  overlays : List FileM
  nodes : List (String × Nat)
  arena : List NodeData
  dirtyUris : List String
deriving DecidableEq, Repr

/-- DTSCtx.files: board file first, then the overlays. -/
def ctxFiles (c : CtxM) : List FileM :=
  match c.boardFile with
  | some bf => bf :: c.overlays
  | none => c.overlays

/-- DTSCtx.entries: the entries of every file in file order. -/
def ctxEntries (c : CtxM) : List Entry :=
  (ctxFiles c).flatMap (fun f => f.entries)

/-- DTSCtx.fileCount. -/
def fileCount (c : CtxM) : Nat :=
  c.overlays.length + (if c.boardFile.isSome then 1 else 0)

/-- Parser.parse for one document inside a context: a fresh DTSFile whose
    dirty flag is true (the field initializer; parse never clears it), run
    against the shared registry and arena, with the entries of the other
    files visible for label resolution. -/
def parseFileC (c : CtxM) (uri : String) (pri : Nat) (evs : List Event) :
    CtxM × FileM :=
  let s0 : PState := ⟨c.nodes, c.arena, ctxEntries c, [], [], 0, pri, []⟩
  let s := run s0 evs
  ({ c with nodes := s.nodes, arena := s.arena },
   ⟨uri, true, s.entries.drop (ctxEntries c).length, s.diags, pri⟩)

/-- DTSFile.remove: detach all entries and mark the file dirty. -/
def removeF (f : FileM) : FileM := { f with entries := [], dirty := true }

/-- DTSCtx.reset: remove each file hit by a dirty uri, hand the removed
    board and overlay files back, and blank the context (registry and dirty
    set emptied, files detached; the arena models the heap and persists). -/
def resetC (c : CtxM) : CtxM × Option FileM × List FileM :=
  let board := c.boardFile.map (fun bf =>
    if c.dirtyUris.any (fun u => u = bf.uri) then removeF bf else bf)
  let ovs := c.overlays.map (fun f =>
    if c.dirtyUris.any (fun u => u = f.uri) then removeF f else f)
  ({ c with boardFile := none, overlays := [], nodes := [], dirtyUris := [] },
   board, ovs)

/-- DTSCtx.adoptNodes: register each entry node under its path unless the
    path is already taken. -/
def adoptNodesC (c : CtxM) (f : FileM) : CtxM :=
  f.entries.foldl (fun c e =>
    match (c.arena.get? e.nodeId).map (fun nd => nd.path) with
    | some p =>
      if (lookupPath c.nodes p).isSome then c
      else { c with nodes := c.nodes ++ [(p, e.nodeId)] }
    | none => c) c

/-- Parser.reparse: reset, then board file first (re-parse when its dirty
    flag is set, otherwise adopt its nodes; with no board file the adopt
    call dereferences null, modeled as an error), then each overlay in
    order likewise.  docs maps a uri to the current document constructs. -/
def reparseC (c : CtxM) (docs : String → List Event) : Except Unit CtxM :=
  let r := resetC c
  let afterBoard : Except Unit CtxM :=
    match r.2.1 with
    | some bf =>
      if bf.dirty then
        let pr := parseFileC r.1 bf.uri (fileCount r.1) (docs bf.uri)
        Except.ok { pr.1 with boardFile := some pr.2 }
      else Except.ok { adoptNodesC r.1 bf with boardFile := some bf }
    | none => Except.error ()
  match afterBoard with
  | Except.error e => Except.error e
  | Except.ok c1 =>
    Except.ok (r.2.2.foldl (fun c1 f =>
      if f.dirty then
        let pr := parseFileC c1 f.uri (fileCount c1) (docs f.uri)
        { pr.1 with overlays := c1.overlays ++ [pr.2] }
      else { adoptNodesC c1 f with overlays := c1.overlays ++ [f] }) c1)

/-- Parser.addContext for a board-only context: parse the board document
    into a fresh context. -/
def mkBoardCtx (uri : String) (evs : List Event) : CtxM :=
  let pr := parseFileC ⟨none, [], [], [], []⟩ uri 0 evs
  { pr.1 with boardFile := some pr.2 }

/-- The board document: the file / { }; as constructs. -/
def c3BoardEvents : List Event := [.rootOpen, .close]

/-- The context after the initial parse of the board file. -/
def c3Ctx : CtxM := mkBoardCtx "board.dts" c3BoardEvents

/-- C3 evaluation at the failing input: the context has an empty dirty uri
    set, yet its board file dirty flag is still true (nothing ever clears
    it), so reparse takes the full re-parse branch instead of re-adopting:
    the registry afterwards maps / to the freshly allocated node object 1
    where it mapped object 0 before, and the new board file is again dirty.
    The claim says the registry would keep the same node objects. -/
theorem c3_reparse_reallocates_nodes :
    c3Ctx.dirtyUris = [] ∧
    (c3Ctx.boardFile.map FileM.dirty) = some true ∧
    lookupPath c3Ctx.nodes "/" = some 0 ∧
    ((reparseC c3Ctx (fun _ => c3BoardEvents)).toOption.bind
      (fun c1 => lookupPath c1.nodes "/")) = some 1 ∧
    ((reparseC c3Ctx (fun _ => c3BoardEvents)).toOption.bind
      (fun c1 => c1.boardFile.map FileM.dirty)) = some true := by
  exact ⟨rfl, rfl, rfl, rfl, rfl⟩

/-! ## Claim C4: raw/expanded position remapping (Line.rawPos,
  ParserState.location)

  A macro expansion instance holds its start offset in the raw line text,
  the width of the raw macro text and the width of the inserted expansion
  text; the instances of a line are sorted by start offset and do not
  overlap (MacroInstance.filterOverlapping). -/

structure MInst where
  start : Nat
  rawLen : Nat
  insLen : Nat
deriving DecidableEq, Repr

/-- Line.rawPos on an offset: walk the macro instances; stop before an
    instance that starts beyond the (progressively shifted) offset; an
    offset inside an expansion clamps to the start of the raw macro text, or
    to its end when the latest position is wanted; otherwise shift by the
    raw minus expanded width and continue. -/
def rawPos : List MInst → Int → Bool → Int
  | [], loc, _ => loc
  | m :: ms, loc, earliest =>
    if (m.start : Int) > loc then loc
    else if loc < (m.start : Int) + (m.insLen : Int) then
      (if earliest then (m.start : Int) else (m.start : Int) + (m.rawLen : Int))
    else rawPos ms (loc + (m.rawLen : Int) - (m.insLen : Int)) earliest

/-- The accumulated raw minus expanded widths of a macro list. -/
def delta : List MInst → Int
  | [] => 0
  | m :: t => ((m.rawLen : Int) - (m.insLen : Int)) + delta t

/-- The offset lies at or beyond the end of every expansion in the list, in
    the progressively shifted coordinates the traversal uses. -/
def AfterAll : List MInst → Int → Prop
  | [], _ => True
  | m :: t, loc => (m.start : Int) + (m.insLen : Int) ≤ loc ∧
      AfterAll t (loc + (m.rawLen : Int) - (m.insLen : Int))

/-- The shifted offset lies before the first remaining instance. -/
def BeforeFirst : List MInst → Int → Prop
  | [], _ => True
  | m :: _, loc => loc < (m.start : Int)

/-- Line.rawPos on a Range: the start is remapped with earliest = true and
    the end with earliest = false. -/
def rawRange (ms : List MInst) (s e : Int) : Int × Int :=
  (rawPos ms s true, rawPos ms e false)

/-- ParserState.location: the start column is remapped through the start
    line with earliest = true, the end column through the end line with
    earliest = false. -/
def psLocation (msStart msEnd : List MInst) (s e : Int) : Int × Int :=
  (rawPos msStart s true, rawPos msEnd e false)

theorem delta_cons (a : MInst) (t : List MInst) :
    delta (a :: t) = ((a.rawLen : Int) - (a.insLen : Int)) + delta t := rfl

theorem rawPos_cons (m : MInst) (ms : List MInst) (loc : Int) (e : Bool) :
    rawPos (m :: ms) loc e =
      if (m.start : Int) > loc then loc
      else if loc < (m.start : Int) + (m.insLen : Int) then
        (if e then (m.start : Int) else (m.start : Int) + (m.rawLen : Int))
      else rawPos ms (loc + (m.rawLen : Int) - (m.insLen : Int)) e := rfl

theorem rawPos_pass (pre : List MInst) :
    ∀ (rest : List MInst) (loc : Int) (e : Bool), AfterAll pre loc →
    rawPos (pre ++ rest) loc e = rawPos rest (loc + delta pre) e := by
  induction pre with
  | nil =>
    intro rest loc e _
    simp [delta]
  | cons a t ih =>
    intro rest loc e h
    obtain ⟨h1, h2⟩ := h
    have hins : (0 : Int) ≤ (a.insLen : Int) := Int.natCast_nonneg _
    show rawPos (a :: (t ++ rest)) loc e = _
    rw [rawPos_cons, if_neg (by omega), if_neg (by omega), ih rest _ e h2,
      delta_cons]
    congr 1
    ring

theorem c4_rawPos_remap :
    (∀ (pre : List MInst) (m : MInst) (post : List MInst) (loc : Int)
        (e : Bool),
      AfterAll pre loc →
      (m.start : Int) ≤ loc + delta pre →
      loc + delta pre < (m.start : Int) + (m.insLen : Int) →
      rawPos (pre ++ m :: post) loc e =
        (if e then (m.start : Int) else (m.start : Int) + (m.rawLen : Int))) ∧
    (∀ (pre post : List MInst) (loc : Int) (e : Bool),
      AfterAll pre loc →
      BeforeFirst post (loc + delta pre) →
      rawPos (pre ++ post) loc e = loc + delta pre) ∧
    (∀ (ms : List MInst) (s e : Int),
      rawRange ms s e = (rawPos ms s true, rawPos ms e false)) ∧
    (∀ (msStart msEnd : List MInst) (s e : Int),
      psLocation msStart msEnd s e =
        (rawPos msStart s true, rawPos msEnd e false)) := by
  refine ⟨?_, ?_, fun _ _ _ => rfl, fun _ _ _ _ => rfl⟩
  · intro pre m post loc e hafter hlo hhi
    rw [rawPos_pass pre (m :: post) loc e hafter, rawPos_cons,
      if_neg (by omega), if_pos (by omega)]
  · intro pre post loc e hafter hbefore
    rw [rawPos_pass pre post loc e hafter]
    cases post with
    | nil => rfl
    | cons m ms =>
      rw [rawPos_cons, if_pos (by exact hbefore)]

/-- Witness for c4_rawPos_remap on the doc comment example line: raw text
    foo MACRO_1 MACRO_2 and processed text foo bar 1234, so the instances
    are (4, 7, 3) and (12, 7, 4).  Offset 9 of the processed text lies in
    the second expansion: earliest maps it to raw offset 12 and latest to
    raw offset 19; offset 13 lies beyond both expansions and shifts by the
    total width difference 7 to raw offset 20. -/
theorem c4_rawPos_remap_witness :
    rawPos [⟨4, 7, 3⟩, ⟨12, 7, 4⟩] 9 true = 12 ∧
    rawPos [⟨4, 7, 3⟩, ⟨12, 7, 4⟩] 9 false = 19 ∧
    rawPos [⟨4, 7, 3⟩, ⟨12, 7, 4⟩] 13 true = 20 := by
  have ha1 : AfterAll [⟨4, 7, 3⟩] 9 := ⟨by norm_num, trivial⟩
  have ha2 : AfterAll [⟨4, 7, 3⟩, ⟨12, 7, 4⟩] 13 :=
    ⟨by norm_num, by norm_num, trivial⟩
  refine ⟨?_, ?_, ?_⟩
  · have h := c4_rawPos_remap.1 [⟨4, 7, 3⟩] ⟨12, 7, 4⟩ [] 9 true ha1
      (by norm_num [delta]) (by norm_num [delta])
    simpa [delta] using h
  · have h := c4_rawPos_remap.1 [⟨4, 7, 3⟩] ⟨12, 7, 4⟩ [] 9 false ha1
      (by norm_num [delta]) (by norm_num [delta])
    simpa [delta] using h
  · have h := c4_rawPos_remap.2.1 [⟨4, 7, 3⟩, ⟨12, 7, 4⟩] [] 13 true ha2
      trivial
    rw [List.append_nil] at h
    rw [h]
    norm_num [delta]

/-! ## Claim C8: the stable flag and the waiter queue (Parser.stable and
  the drain loop at the end of Parser.reparse) -/

/-- The waiter state of the Parser: the process-wide stable flag and the
    queue of pending resolve callbacks, identified by arrival ids. -/
structure ParserS where
  isStable : Bool
  waiters : List Nat
deriving DecidableEq, Repr

/-- Parser.stable(): resolve immediately when stable, otherwise append the
    caller to the waiter queue; the Bool reports immediate resolution. -/
def stableCall (s : ParserS) (w : Nat) : ParserS × Bool :=
  if s.isStable then (s, true)
  else ({ s with waiters := s.waiters ++ [w] }, false)

/-- One drain loop iteration resolves waiters.pop(), the last queue element;
    the fuel equals the queue length, which the loop consumes exactly. -/
def drainLoop : Nat → List Nat → List Nat
  | 0, _ => []
  | fuel + 1, ws =>
    match ws.getLast? with
    | none => []
    | some w => w :: drainLoop fuel ws.dropLast

/-- The resolution order of the drain loop at the end of Parser.reparse:
    while (waiters.length) waiters.pop()(). -/
def drainWaiters (ws : List Nat) : List Nat := drainLoop ws.length ws

/-- C8 counterexample: two callers block while a reparse is in flight, the
    first with id 1 and the second with id 2; the queue is [1, 2] but the
    drain resolves them in the order [2, 1], so the first caller to block is
    the last to be resolved, not the first. -/
theorem c8_counterexample :
    ((stableCall ((stableCall ⟨false, []⟩ 1).1) 2).1).waiters = [1, 2] ∧
    drainWaiters [1, 2] = [2, 1] ∧
    drainWaiters [1, 2] ≠ [1, 2] := by
  exact ⟨rfl, rfl, by decide⟩

theorem drainWaiters_eq_reverse (ws : List Nat) :
    drainWaiters ws = ws.reverse := by
  unfold drainWaiters
  induction ws using List.reverseRecOn with
  | nil => rfl
  | append_singleton l a ih =>
    unfold drainLoop
    rw [List.length_append]
    simp only [List.length_singleton]
    rw [List.getLast?_concat]
    simp only [List.dropLast_concat]
    rw [ih]
    simp

/-- C8 (amended): every caller of Parser.stable() while isStable is false is
    appended to the waiter queue (and a caller under a stable parser returns
    at once without queuing), and when the in-flight reparse completes all
    queued waiters are resolved -- in LIFO order: the drain resolves the
    reverse of the queue, so the last caller to block is the first to be
    resolved. -/
theorem c8_waiters_lifo :
    (∀ (s : ParserS) (w : Nat), s.isStable = false →
      (stableCall s w).1.waiters = s.waiters ++ [w] ∧
        (stableCall s w).2 = false) ∧
    (∀ (s : ParserS) (w : Nat), s.isStable = true → stableCall s w = (s, true)) ∧
    (∀ ws : List Nat, drainWaiters ws = ws.reverse) := by
  refine ⟨?_, ?_, drainWaiters_eq_reverse⟩
  · intro s w h
    unfold stableCall
    rw [if_neg (by simp [h])]
    exact ⟨rfl, rfl⟩
  · intro s w h
    unfold stableCall
    rw [if_pos (by simp [h])]

/-- Witness for c8_waiters_lifo: a blocked caller with id 7 behind a queue
    holding id 5 lands at the end of the queue, and the drain resolves the
    queue reversed. -/
theorem c8_waiters_lifo_witness :
    (stableCall ⟨false, [5]⟩ 7).1.waiters = [5] ++ [7] ∧
    drainWaiters [5, 7] = [7, 5] := by
  refine ⟨(c8_waiters_lifo.1 ⟨false, [5]⟩ 7 rfl).1, ?_⟩
  rw [c8_waiters_lifo.2.2 [5, 7]]
  rfl

/-! ## Claim C5: parsePropValue and the missing-comma diagnostic

  The property value region is modeled at token level: the cursor state
  holds the token stream (whitespace dropped, so positions are token
  indices), the cursor position, the position of the most recent successful
  match (state.location()), the diagnostics (message and position) and the
  quick fix actions (title and isPreferred).  Parenthesised expressions and
  bytestring brackets are outside the modeled token alphabet, so
  Expression.match and BytestringValue.match never fire, exactly as their
  leading-character regexes never fire on streams without those tokens. -/

inductive VTok where
  | semi
  | comma
  | langle
  | rangle
  | lbrace
  | rbrace
  | eqTok
  | numTok (n : Nat) (hex : Bool)
  | strTok (s : String)
  | refTok (r : String)
  | wordTok (w : String)
deriving DecidableEq, Repr

structure TState where
  toks : List VTok
  pos : Nat
  prev : Nat
  diags : List (String × Nat)
  fixes : List (String × Bool)
deriving DecidableEq, Repr

def TState.eofT (s : TState) : Bool := decide (s.pos ≥ s.toks.length)

def TState.peekT (s : TState) : Option VTok := s.toks.get? s.pos

/-- A successful state.match: record the matched span and move past it. -/
def TState.advance (s : TState) : TState :=
  { s with prev := s.pos, pos := s.pos + 1 }

/-- state.skipWhitespace: reports whether input remains (the token stream
    holds no whitespace). -/
def TState.skipWhitespaceT (s : TState) : Bool := !s.eofT

def TState.pushDiagT (s : TState) (msg : String) (p : Nat) : TState :=
  { s with diags := s.diags ++ [(msg, p)] }

def TState.pushFixT (s : TState) (title : String) (pref : Bool) : TState :=
  { s with fixes := s.fixes ++ [(title, pref)] }

def TState.freezeT (s : TState) : Nat := s.pos

def TState.resetT (s : TState) (p : Nat) : TState := { s with pos := p }

/-- state.skipToken: consume one token, or jump to the end at eof. -/
def TState.skipTokenT (s : TState) : TState :=
  if s.eofT then { s with pos := s.toks.length } else s.advance

/-- state.match against a single-token pattern. -/
def matchTok (p : VTok → Bool) (s : TState) : Option VTok × TState :=
  match s.peekT with
  | some t => if p t then (some t, s.advance) else (none, s)
  | none => (none, s)

/-- StringValue.match. -/
def stringMatchT (s : TState) : Option PV × TState :=
  match s.peekT with
  | some (.strTok str) => (some (.str str), s.advance)
  | _ => (none, s)

/-- IntValue.match, producing an array cell. -/
def intMatchT (s : TState) : Option Cell × TState :=
  match s.peekT with
  | some (.numTok n hex) => (some (.int n hex), s.advance)
  | _ => (none, s)

/-- PHandle.match producing an array cell: a reference token (label or path
    form) or a nonempty string (the deprecated path form). -/
def phandleMatchT (s : TState) : Option Cell × TState :=
  match s.peekT with
  | some (.refTok r) =>
    (some (.ph r (if strStartsWith r "&\x7b" then .pathRef else .ref)),
      s.advance)
  | some (.strTok str) =>
    if str = "" then (none, s) else (some (.ph str .string), s.advance)
  | _ => (none, s)

/-- PHandle.match producing a top level value. -/
def phandleMatchPVT (s : TState) : Option PV × TState :=
  match s.peekT with
  | some (.refTok r) =>
    (some (.ph r (if strStartsWith r "&\x7b" then .pathRef else .ref)),
      s.advance)
  | some (.strTok str) =>
    if str = "" then (none, s) else (some (.ph str .string), s.advance)
  | _ => (none, s)

/-- Expression.match: begins with an opening parenthesis, which is outside
    the modeled token alphabet, so it never consumes anything. -/
def exprMatchT (s : TState) : Option Cell × TState := (none, s)

/-- BytestringValue.match: begins with an opening square bracket, which is
    outside the modeled token alphabet, so it never consumes anything. -/
def bytestringMatchT (s : TState) : Option PV × TState := (none, s)

/-- The error recovery loop inside ArrayValue.match: scan ahead; a new
    value or block opener resets to the start of the error and diagnoses an
    unterminated expression; a closing angle diagnoses a syntax error over
    the bad tokens; a semicolon resets to just before it first; anything
    else is skipped and extends the error span. -/
def arrayRecover : Nat → TState → Nat → Nat → Nat → TState
  | 0, s, _, _, _ => s
  | fuel + 1, s, startPos, startOfError, endOfError =>
    if !s.skipWhitespaceT then s
    else
      match matchTok (fun t => t = .eqTok || t = .langle || t = .lbrace
          || t = .rbrace) s with
      | (some _, s1) =>
        ((s1.resetT startOfError).pushDiagT "Unterminated expression" startPos)
      | (none, s1) =>
        match matchTok (fun t => t = .rangle || t = .semi || t = .rbrace) s1 with
        | (some t, s2) =>
          if t = .rangle then s2.pushDiagT "Syntax error" startOfError
          else
            let s3 := if t = .semi then s2.resetT endOfError else s2
            s3.pushDiagT "Unterminated expression" startPos
        | (none, s2) =>
          let s3 := s2.skipTokenT
          arrayRecover fuel s3 startPos startOfError s3.freezeT

/-- The value loop inside ArrayValue.match: while input remains and no
    closing angle is matched, try IntValue, PHandle and Expression; any
    other token enters the recovery path and ends the loop. -/
def arrayLoop : Nat → TState → Nat → List Cell → List Cell × TState
  | 0, s, _, vals => (vals, s)
  | fuel + 1, s, startPos, vals =>
    if !s.skipWhitespaceT then (vals, s)
    else
      match matchTok (fun t => t = .rangle) s with
      | (some _, s1) => (vals, s1)
      | (none, s1) =>
        match intMatchT s1 with
        | (some c, s2) => arrayLoop fuel s2 startPos (vals ++ [c])
        | (none, s2) =>
          match phandleMatchT s2 with
          | (some c, s3) => arrayLoop fuel s3 startPos (vals ++ [c])
          | (none, s3) =>
            match exprMatchT s3 with
            | (some c, s4) => arrayLoop fuel s4 startPos (vals ++ [c])
            | (none, s4) =>
              let startOfError := s4.freezeT
              let s5 := s4.skipTokenT
              (vals, arrayRecover (s5.toks.length + 1) s5 startPos
                startOfError s5.freezeT)

/-- ArrayValue.match. -/
def arrayMatchT (s : TState) : Option PV × TState :=
  let startPos := s.freezeT
  match matchTok (fun t => t = .langle) s with
  | (none, s1) => (none, s1)
  | (some _, s1) =>
    let r := arrayLoop (s1.toks.length + 1) s1 startPos []
    (some (.arr r.1), r.2)

/-- The body of parsePropValue: while input remains, break on a semicolon;
    a pending missing-comma location from the previous iteration is
    diagnosed with its preferred insert-comma quick fix; after the first
    value a missing comma is only recorded (to be diagnosed next iteration,
    as it could also mean a missing semicolon); then the value types are
    tried in order; a bare number gets the bracket diagnostic and quick
    fix; any other failed value parse returns without consuming. -/
def ppvLoop : Nat → TState → List PV → Option Nat → List PV × TState
  | 0, s, elems, _ => (elems, s)
  | fuel + 1, s, elems, missingComma =>
    if !s.skipWhitespaceT then (elems, s)
    else if (match s.peekT with | some .semi => true | _ => false) then
      (elems, s)
    else
      let s1 := match missingComma with
        | some p =>
          ((s.pushDiagT "Expected comma between property values" p).pushFixT
            "Separate values by comma" true)
        | none => s
      let mc1 : Option Nat := none
      let r2 : TState × Option Nat :=
        if elems.length > 0 then
          match matchTok (fun t => t = .comma) s1 with
          | (some _, s2) => (s2, mc1)
          | (none, s2) => (s2, some s2.prev)
        else (s1, mc1)
      match arrayMatchT r2.1 with
      | (some v, s3) => ppvLoop fuel s3 (elems ++ [v]) r2.2
      | (none, s3) =>
        match stringMatchT s3 with
        | (some v, s4) => ppvLoop fuel s4 (elems ++ [v]) r2.2
        | (none, s4) =>
          match bytestringMatchT s4 with
          | (some v, s5) => ppvLoop fuel s5 (elems ++ [v]) r2.2
          | (none, s5) =>
            match phandleMatchPVT s5 with
            | (some v, s6) => ppvLoop fuel s6 (elems ++ [v]) r2.2
            | (none, s6) =>
              match s6.peekT with
              | some (.numTok _ _) =>
                let s7 := s6.advance
                (elems, (s7.pushDiagT "Missing < > brackets around number"
                  s7.prev).pushFixT "Add brackets" true)
              | _ => (elems, s6)

/-- parsePropValue over a token stream: run the loop; an empty result is a
    single BoolValue (a bare boolean flag property). -/
def parsePropValueT (toks : List VTok) : List PV × TState :=
  let s : TState := ⟨toks, 0, 0, [], []⟩
  let r := ppvLoop (toks.length + 1) s [] none
  if r.1.isEmpty then ([PV.boolv], r.2) else r

/-- The tokens of the value region of prop = < 1 > < 2 >; -/
def c5Toks1 : List VTok :=
  [.langle, .numTok 1 false, .rangle, .langle, .numTok 2 false, .rangle, .semi]

/-- The tokens of the value region of prop = < 1 > < 2 > < 3 >; -/
def c5Toks2 : List VTok :=
  [.langle, .numTok 1 false, .rangle, .langle, .numTok 2 false, .rangle,
   .langle, .numTok 3 false, .rangle, .semi]

/-- C5 evaluation at the failing input: on < 1 > < 2 >; both values parse
    (so the gap between them is followed by a successfully parsed value and
    the claim demands exactly one missing-comma diagnostic with its quick
    fix), yet the parser emits no diagnostic and no quick fix at all,
    because the pending missing-comma record is only flushed at the top of
    the next loop iteration, which instead breaks on the semicolon; on
    < 1 > < 2 > < 3 >; there are two such gaps but only the first is
    diagnosed. -/
theorem c5_missing_comma_not_diagnosed :
    (parsePropValueT c5Toks1).1 =
      [PV.arr [Cell.int 1 false], PV.arr [Cell.int 2 false]] ∧
    (parsePropValueT c5Toks1).2.diags = [] ∧
    (parsePropValueT c5Toks1).2.fixes = [] ∧
    (parsePropValueT c5Toks2).1.length = 3 ∧
    (parsePropValueT c5Toks2).2.diags =
      [("Expected comma between property values", 2)] := by
  exact ⟨rfl, rfl, rfl, rfl, rfl⟩
